import Mathlib

/-!
Shallow embedding of the route-planning core of `app.js` (the BINGEDRONE
food-truck map), together with theorems about it.

Embedding conventions:

* js numbers are embedded as exact rationals `ℚ`.
* `closest` in the source computes `Math.sqrt(dx*dx + dy*dy)` and only ever
  compares two such values.  Since the square root is strictly monotone on
  nonnegative arguments, the embedding carries the squared distance
  `dx*dx + dy*dy` instead, which keeps every definition computable; the
  comparison `distance < acc[1]` in the source is equivalent to the
  comparison of the squared values.  Theorems that speak about the
  Euclidean distance itself state their conclusions through `Real.sqrt`
  applied to these squared values.
* js `undefined` and `null` results are embedded as `Option.none`.
* The body of `planRoute(list)` in the source reads the module-level
  variable `displayedList` throughout (lines 127, 129, 132 of app.js) and
  never uses its parameter `list`; the global is therefore passed as an
  explicit first argument `displayedList`, and the js parameter as the
  second argument `list`.
* The `while (source.length) shiftClosestTruck(source, dest)` loop is
  embedded with explicit fuel, instantiated with `source.length`, which is
  exact because every successful iteration removes exactly one element
  from `source` (proved in `shift_some_decomp` / `planRoute_terminates`).
-/

/-- A truck as consumed by the route planner: the id assigned in
`fetchList` (`index + 1`) and the pixel coordinates `x`, `y`.  The planner
never reads any other field. -/
structure Point where
  id : Nat
  x : ℚ
  y : ℚ
deriving DecidableEq

/-- js (closest, lines 159-161): `const dx = x1 - x2; const dy = y1 - y2;`
and the value under `Math.sqrt`, namely `(dx * dx) + (dy * dy)`. -/
def dist2 (x1 y1 x2 y2 : ℚ) : ℚ :=
  (x1 - x2) * (x1 - x2) + (y1 - y2) * (y1 - y2)

/-- Squared distance from a target point `t` to a truck `p`; abbreviation
used by the specification lemmas. -/
abbrev distTo (t : ℚ × ℚ) (p : Point) : ℚ :=
  dist2 t.1 t.2 p.x p.y

/-- The reducer passed to `trucks.reduce` in js `closest` (lines 158-165):
`if (acc === null) return [id, distance]; if (distance < acc[1]) return
[id, distance]; return acc;` with `distance` carried squared (see the
header note). -/
def closestStep (t : ℚ × ℚ) (acc : Option (Nat × ℚ)) (p : Point) : Option (Nat × ℚ) :=
  let distance := dist2 t.1 t.2 p.x p.y
  match acc with
  | none => some (p.id, distance)
  | some a => if distance < a.2 then some (p.id, distance) else acc

/-- js `closest(trucks, [x1, y1])` (lines 156-166): returns `null` on an
empty list, otherwise reduces with a `null` initial accumulator. -/
def closest (trucks : List Point) (t : ℚ × ℚ) : Option (Nat × ℚ) :=
  if trucks.length = 0 then none
  else trucks.foldl (closestStep t) none

/-- js `Math.min(...xs)` for the non-empty lists produced in
`middlePoint`; the empty case (which js maps to `Infinity`) never occurs
there and is given the junk value `0`. -/
def listMin : List ℚ → ℚ
  | [] => 0
  | x :: xs => xs.foldl min x

/-- js `Math.max(...xs)`, with the same convention as `listMin`. -/
def listMax : List ℚ → ℚ
  | [] => 0
  | x :: xs => xs.foldl max x

/-- js `middlePoint(trucks)` (lines 148-152): midpoint of the bounding
box of the x and y coordinates. -/
def middlePoint (trucks : List Point) : ℚ × ℚ :=
  let xs := trucks.map Point.x
  let ys := trucks.map Point.y
  ((listMin xs + listMax xs) / 2, (listMin ys + listMax ys) / 2)

/-- js `extract(trucks, id)` (lines 184-188): `findIndex` of the first
entry with the given id, returning `null` (and leaving the list alone)
when there is none, otherwise splicing that entry out.  The destructive
splice is embedded by returning the removed entry together with the
remaining list. -/
def extract : List Point → Nat → Option Point × List Point
  | [], _ => (none, [])
  | p :: ts, i =>
    if p.id = i then (some p, ts)
    else
      let r := extract ts i
      (r.1, p :: r.2)

/-- js `shiftClosestTruck(source, dest)` (lines 171-181): compare the
closest source truck to the head of `dest` with the closest source truck
to its tail, then unshift or push the winner; ties (`headDistance <
tailDistance` false) push onto the tail.  A `null` from `closest` or
`extract` would make the js destructuring or member access throw; those
(unreachable in the program) paths are embedded as `none`.  The mutation
of `source` and `dest` is embedded by returning the updated pair. -/
def shiftClosestTruck (source dest : List Point) : Option (List Point × List Point) :=
  match dest.head? with
  | none => none
  | some hd =>
    match dest.getLast? with
    | none => none
    | some tl =>
      match closest source (hd.x, hd.y) with
      | none => none
      | some nh =>
        match closest source (tl.x, tl.y) with
        | none => none
        | some nt =>
          if nh.2 < nt.2 then
            match extract source nh.1 with
            | (some p, rest) => some (rest, p :: dest)
            | (none, _) => none
          else
            match extract source nt.1 with
            | (some p, rest) => some (rest, dest ++ [p])
            | (none, _) => none

/-- js `while (source.length) shiftClosestTruck(source, dest);` (line
142), embedded with explicit fuel.  `planRoute` instantiates the fuel
with `source.length`, which is exact: every successful iteration removes
exactly one element from `source`. -/
def routeLoopFuel : Nat → List Point → List Point → Option (List Point)
  | 0, source, dest => if source.length = 0 then some dest else none
  | fuel + 1, source, dest =>
    if source.length = 0 then some dest
    else
      match shiftClosestTruck source dest with
      | none => none
      | some sd => routeLoopFuel fuel sd.1 sd.2

/-- js `planRoute(list)` (lines 126-145).  The body reads the global
`displayedList`, never the parameter `list`, so the global is the first
argument here.  `const source = displayedList.slice(0)` copies the list,
so `source` starts as the same list value as `displayedList`; the copy is
reflected by the state-passing `extract`.  The bare `return;` for fewer
than two trucks yields js `undefined`, embedded as `none`. -/
def planRoute (displayedList list : List Point) : Option (List Point) :=
  if displayedList.length < 2 then none
  else
    match closest displayedList (middlePoint displayedList) with
    | none => none
    | some m =>
      match extract displayedList m.1 with
      | (none, _) => none
      | (some middleTruck, source1) =>
        match closest source1 (middleTruck.x, middleTruck.y) with
        | none => none
        | some sec =>
          match extract source1 sec.1 with
          | (none, _) => none
          | (some secondTruck, source2) =>
            routeLoopFuel source2.length source2 [middleTruck, secondTruck]

/-- The module-level state visible to `planRoute`: the variable
`displayedList` of app.js (line 21). -/
structure Globals where
  displayedList : List Point
deriving DecidableEq

/-- A call `planRoute(list)` as the caller sees it: the global state after
the call together with the returned value.  The body of `planRoute` only
writes the locals `source` (initialised from `displayedList.slice(0)`, a
copy) and `dest`, so the global cell is returned unchanged. -/
def planRouteCall (g : Globals) (list : List Point) : Globals × Option (List Point) :=
  (g, planRoute g.displayedList list)

/-- `p` is the first truck of `ts` (in iteration order) attaining the
minimal distance to the target `t`: every earlier truck is strictly
farther, and no truck is closer. -/
def IsFirstNearest (ts : List Point) (t : ℚ × ℚ) (p : Point) : Prop :=
  ∃ pre post, ts = pre ++ p :: post ∧
    (∀ q ∈ pre, distTo t p < distTo t q) ∧
    (∀ q ∈ ts, distTo t p ≤ distTo t q)

/-- Concrete trucks used by witnesses and counterexamples. -/
def pA : Point := ⟨1, 0, 0⟩

/-- Second concrete truck. -/
def pB : Point := ⟨2, 2, 0⟩

/-- Third concrete truck. -/
def pC : Point := ⟨3, 10, 10⟩

/-- Fourth concrete truck. -/
def pD : Point := ⟨4, 13, 10⟩

/-- Fifth concrete truck. -/
def pE : Point := ⟨5, 3, 0⟩


theorem dist2_nonneg (x1 y1 x2 y2 : ℚ) : 0 ≤ dist2 x1 y1 x2 y2 :=
  add_nonneg (mul_self_nonneg _) (mul_self_nonneg _)

theorem extract_some_decomp {ts : List Point} {i : Nat} {p : Point} {rest : List Point}
    (h : extract ts i = (some p, rest)) :
    ∃ pre post, ts = pre ++ p :: post ∧ rest = pre ++ post ∧ p.id = i ∧
      ∀ q ∈ pre, q.id ≠ i := by
  induction ts generalizing rest with
  | nil => simp [extract] at h
  | cons a ts ih =>
    rcases he : extract ts i with ⟨r1, r2⟩
    by_cases ha : a.id = i
    · simp only [extract, if_pos ha, Prod.mk.injEq, Option.some.injEq] at h
      obtain ⟨rfl, rfl⟩ := h
      exact ⟨[], ts, rfl, rfl, ha, by simp⟩
    · simp only [extract, if_neg ha, he, Prod.mk.injEq] at h
      obtain ⟨h1, h2⟩ := h
      subst h1
      obtain ⟨pre, post, hts, hrest, hid, hpre⟩ := ih he
      refine ⟨a :: pre, post, by simp [hts], by simp [← h2, hrest], hid, ?_⟩
      intro q hq
      rcases List.mem_cons.mp hq with rfl | hq
      · exact ha
      · exact hpre q hq

theorem extract_some_perm {ts : List Point} {i : Nat} {p : Point} {rest : List Point}
    (h : extract ts i = (some p, rest)) : ts.Perm (p :: rest) := by
  obtain ⟨pre, post, hts, hrest, -, -⟩ := extract_some_decomp h
  rw [hts, hrest]
  exact List.perm_middle

theorem extract_some_length {ts : List Point} {i : Nat} {p : Point} {rest : List Point}
    (h : extract ts i = (some p, rest)) : rest.length + 1 = ts.length := by
  simpa using (extract_some_perm h).length_eq.symm

theorem extract_some_of_mem {ts : List Point} {i : Nat}
    (h : ∃ p ∈ ts, p.id = i) : ∃ p rest, extract ts i = (some p, rest) := by
  induction ts with
  | nil => simp at h
  | cons a ts ih =>
    by_cases ha : a.id = i
    · exact ⟨a, ts, by simp [extract, ha]⟩
    · obtain ⟨p, hp, hpi⟩ := h
      rcases List.mem_cons.mp hp with rfl | hp
      · exact absurd hpi ha
      · obtain ⟨q, rest, hq⟩ := ih ⟨p, hp, hpi⟩
        exact ⟨q, a :: rest, by simp [extract, ha, hq]⟩

theorem extract_first {pre : List Point} {p : Point} {post : List Point} {i : Nat}
    (hp : p.id = i) (hpre : ∀ q ∈ pre, q.id ≠ i) :
    extract (pre ++ p :: post) i = (some p, pre ++ post) := by
  induction pre with
  | nil => simp [extract, hp]
  | cons a pre ih =>
    have ha : a.id ≠ i := hpre a (by simp)
    have h2 := ih (fun q hq => hpre q (by simp [hq]))
    simp [extract, ha, h2]

theorem closestStep_none_eq (t : ℚ × ℚ) (p : Point) :
    closestStep t none p = some (p.id, distTo t p) := rfl

theorem closestStep_some_eq (t : ℚ × ℚ) (a : Nat × ℚ) (p : Point) :
    closestStep t (some a) p =
      if distTo t p < a.2 then some (p.id, distTo t p) else some a := rfl

theorem foldl_closestStep_some (t : ℚ × ℚ) :
    ∀ (ts : List Point) (a : Nat × ℚ),
      (ts.foldl (closestStep t) (some a) = some a ∧
        ∀ q ∈ ts, a.2 ≤ distTo t q) ∨
      (∃ pre w post, ts = pre ++ w :: post ∧
        ts.foldl (closestStep t) (some a) = some (w.id, distTo t w) ∧
        distTo t w < a.2 ∧
        (∀ q ∈ pre, distTo t w < distTo t q) ∧
        (∀ q ∈ post, distTo t w ≤ distTo t q)) := by
  intro ts
  induction ts with
  | nil => intro a; left; exact ⟨rfl, by simp⟩
  | cons p ts ih =>
    intro a
    by_cases hp : distTo t p < a.2
    · have hstep : closestStep t (some a) p = some (p.id, distTo t p) := by
        rw [closestStep_some_eq, if_pos hp]
      rcases ih (p.id, distTo t p) with ⟨h1, h2⟩ | ⟨pre, w, post, hts, hfold, hlt, hpre, hpost⟩
      · right
        refine ⟨[], p, ts, rfl, ?_, hp, by simp, h2⟩
        rw [List.foldl_cons, hstep]
        exact h1
      · right
        refine ⟨p :: pre, w, post, by simp [hts], ?_, lt_trans hlt hp, ?_, hpost⟩
        · rw [List.foldl_cons, hstep]
          exact hfold
        · intro q hq
          rcases List.mem_cons.mp hq with rfl | hq
          · exact hlt
          · exact hpre q hq
    · have hstep : closestStep t (some a) p = some a := by
        rw [closestStep_some_eq, if_neg hp]
      rcases ih a with ⟨h1, h2⟩ | ⟨pre, w, post, hts, hfold, hlt, hpre, hpost⟩
      · left
        refine ⟨by rw [List.foldl_cons, hstep]; exact h1, ?_⟩
        intro q hq
        rcases List.mem_cons.mp hq with rfl | hq
        · exact le_of_not_lt hp
        · exact h2 q hq
      · right
        refine ⟨p :: pre, w, post, by simp [hts], ?_, hlt, ?_, hpost⟩
        · rw [List.foldl_cons, hstep]
          exact hfold
        · intro q hq
          rcases List.mem_cons.mp hq with rfl | hq
          · exact lt_of_lt_of_le hlt (le_of_not_lt hp)
          · exact hpre q hq

theorem closest_spec {ts : List Point} (t : ℚ × ℚ) (h : ts ≠ []) :
    ∃ pre w post, ts = pre ++ w :: post ∧
      closest ts t = some (w.id, distTo t w) ∧
      (∀ q ∈ pre, distTo t w < distTo t q) ∧
      (∀ q ∈ ts, distTo t w ≤ distTo t q) := by
  cases ts with
  | nil => exact absurd rfl h
  | cons p rest =>
    have hc : closest (p :: rest) t =
        rest.foldl (closestStep t) (some (p.id, distTo t p)) := by
      rw [closest, if_neg (by simp)]
      rw [List.foldl_cons, closestStep_none_eq]
    rcases foldl_closestStep_some t rest (p.id, distTo t p) with
      ⟨h1, h2⟩ | ⟨pre, w, post, hts, hfold, hlt, hpre, hpost⟩
    · refine ⟨[], p, rest, rfl, by rw [hc, h1], by simp, ?_⟩
      intro q hq
      rcases List.mem_cons.mp hq with rfl | hq
      · exact le_refl _
      · exact h2 q hq
    · refine ⟨p :: pre, w, post, by simp [hts], by rw [hc, hfold], ?_, ?_⟩
      · intro q hq
        rcases List.mem_cons.mp hq with rfl | hq
        · exact hlt
        · exact hpre q hq
      · intro q hq
        rcases List.mem_cons.mp hq with rfl | hq
        · exact le_of_lt hlt
        · rw [hts] at hq
          rcases List.mem_append.mp hq with hq | hq
          · exact le_of_lt (hpre q hq)
          · rcases List.mem_cons.mp hq with rfl | hq
            · exact le_refl _
            · exact hpost q hq

theorem closest_total {ts : List Point} (t : ℚ × ℚ) (h : ts ≠ []) :
    ∃ i d, closest ts t = some (i, d) := by
  obtain ⟨-, w, -, -, hc, -, -⟩ := closest_spec t h
  exact ⟨w.id, distTo t w, hc⟩

theorem closest_some_spec {ts : List Point} {t : ℚ × ℚ} {i : Nat} {d : ℚ}
    (h : closest ts t = some (i, d)) :
    ∃ pre w post, ts = pre ++ w :: post ∧ w.id = i ∧ d = distTo t w ∧
      (∀ q ∈ pre, distTo t w < distTo t q) ∧
      (∀ q ∈ ts, distTo t w ≤ distTo t q) := by
  have hne : ts ≠ [] := by
    rintro rfl
    simp [closest] at h
  obtain ⟨pre, w, post, hts, hc, hpre, hall⟩ := closest_spec t hne
  rw [h, Option.some.injEq, Prod.mk.injEq] at hc
  exact ⟨pre, w, post, hts, hc.1.symm, hc.2, hpre, hall⟩

theorem shift_some_decomp {s d s' d' : List Point}
    (h : shiftClosestTruck s d = some (s', d')) :
    ∃ i p, extract s i = (some p, s') ∧ (d' = p :: d ∨ d' = d ++ [p]) := by
  unfold shiftClosestTruck at h
  split at h
  · simp at h
  next hd hh =>
    split at h
    · simp at h
    next tl hl =>
      split at h
      · simp at h
      next nh hch =>
        split at h
        · simp at h
        next nt hct =>
          split at h
          · split at h
            next p rest hex =>
              rw [Option.some.injEq, Prod.mk.injEq] at h
              obtain ⟨rfl, rfl⟩ := h
              exact ⟨nh.1, p, hex, Or.inl rfl⟩
            next hex => simp at h
          · split at h
            next p rest hex =>
              rw [Option.some.injEq, Prod.mk.injEq] at h
              obtain ⟨rfl, rfl⟩ := h
              exact ⟨nt.1, p, hex, Or.inr rfl⟩
            next hex => simp at h

theorem shift_some_spec {s d s' d' : List Point}
    (h : shiftClosestTruck s d = some (s', d')) :
    s'.length + 1 = s.length ∧ (s' ++ d').Perm (s ++ d) ∧ d' ≠ [] := by
  obtain ⟨i, p, hex, hcase⟩ := shift_some_decomp h
  have hperm := extract_some_perm hex
  refine ⟨extract_some_length hex, ?_, ?_⟩
  · rcases hcase with rfl | rfl
    · exact List.Perm.trans List.perm_middle (hperm.symm.append_right d)
    · rw [← List.append_assoc]
      exact List.Perm.trans (List.perm_append_singleton _ _) (hperm.symm.append_right d)
  · rcases hcase with rfl | rfl
    · simp
    · simp

theorem shift_total {s d : List Point} (hs : s ≠ []) (hd : d ≠ []) :
    ∃ s' d', shiftClosestTruck s d = some (s', d') := by
  obtain ⟨hdp, hh⟩ : ∃ a, d.head? = some a := by
    cases d with
    | nil => exact absurd rfl hd
    | cons a d => exact ⟨a, rfl⟩
  obtain ⟨tl, hl⟩ : ∃ a, d.getLast? = some a := by
    cases d with
    | nil => exact absurd rfl hd
    | cons a d =>
      exact ⟨(a :: d).getLast (by simp), List.getLast?_eq_getLast _ (by simp)⟩
  obtain ⟨ih, dh, hch⟩ := closest_total (hdp.x, hdp.y) hs
  obtain ⟨it, dt, hct⟩ := closest_total (tl.x, tl.y) hs
  by_cases hlt : dh < dt
  · obtain ⟨pre, w, post, hts, hwid, -, -⟩ := closest_some_spec hch
    have hmem : ∃ q ∈ s, q.id = ih :=
      ⟨w, hts ▸ List.mem_append_right _ (List.mem_cons_self _ _), hwid⟩
    obtain ⟨p, rest, hex⟩ := extract_some_of_mem hmem
    exact ⟨rest, p :: d, by
      simp [shiftClosestTruck, hh, hl, hch, hct, hlt, hex]⟩
  · obtain ⟨pre, w, post, hts, hwid, -, -⟩ := closest_some_spec hct
    have hmem : ∃ q ∈ s, q.id = it :=
      ⟨w, hts ▸ List.mem_append_right _ (List.mem_cons_self _ _), hwid⟩
    obtain ⟨p, rest, hex⟩ := extract_some_of_mem hmem
    exact ⟨rest, d ++ [p], by
      simp [shiftClosestTruck, hh, hl, hch, hct, hlt, hex]⟩

theorem routeLoopFuel_perm :
    ∀ (fuel : Nat) (s d r : List Point),
      routeLoopFuel fuel s d = some r → r.Perm (s ++ d) := by
  intro fuel
  induction fuel with
  | zero =>
    intro s d r h
    rw [routeLoopFuel] at h
    split at h
    next hlen =>
      rw [Option.some.injEq] at h
      subst h
      have : s = [] := List.length_eq_zero.mp hlen
      subst this
      simp
    next => simp at h
  | succ fuel ih =>
    intro s d r h
    rw [routeLoopFuel] at h
    split at h
    next hlen =>
      rw [Option.some.injEq] at h
      subst h
      have : s = [] := List.length_eq_zero.mp hlen
      subst this
      simp
    next hlen =>
      split at h
      · simp at h
      next sd heq =>
        rcases sd with ⟨s1, d1⟩
        exact (ih _ _ _ h).trans (shift_some_spec heq).2.1

theorem routeLoopFuel_total :
    ∀ (fuel : Nat) (s d : List Point), s.length = fuel → d ≠ [] →
      ∃ r, routeLoopFuel fuel s d = some r := by
  intro fuel
  induction fuel with
  | zero =>
    intro s d hlen _
    exact ⟨d, by rw [routeLoopFuel, if_pos hlen]⟩
  | succ fuel ih =>
    intro s d hlen hd
    have hs : s ≠ [] := by
      intro hnil
      rw [hnil] at hlen
      simp at hlen
    obtain ⟨s', d', hsh⟩ := shift_total hs hd
    obtain ⟨hl1, -, hd'⟩ := shift_some_spec hsh
    obtain ⟨r, hr⟩ := ih s' d' (by omega) hd'
    refine ⟨r, ?_⟩
    rw [routeLoopFuel, if_neg (by omega), hsh]
    exact hr

theorem planRoute_short_none {dl : List Point} (l : List Point) (h : dl.length < 2) :
    planRoute dl l = none := by
  rw [planRoute, if_pos h]

theorem planRoute_decomp {dl : List Point} (l : List Point) (h2 : 2 ≤ dl.length) :
    ∃ mi md mt s1 si sd st s2,
      closest dl (middlePoint dl) = some (mi, md) ∧
      extract dl mi = (some mt, s1) ∧
      closest s1 (mt.x, mt.y) = some (si, sd) ∧
      extract s1 si = (some st, s2) ∧
      planRoute dl l = routeLoopFuel s2.length s2 [mt, st] := by
  have hne : dl ≠ [] := by
    intro h
    subst h
    simp at h2
  obtain ⟨mi, md, hc1⟩ := closest_total (middlePoint dl) hne
  obtain ⟨pre, w, post, hts, hwid, -, -⟩ := closest_some_spec hc1
  have hmem1 : ∃ q ∈ dl, q.id = mi :=
    ⟨w, hts ▸ List.mem_append_right _ (List.mem_cons_self _ _), hwid⟩
  obtain ⟨mt, s1, hex1⟩ := extract_some_of_mem hmem1
  have hs1len : s1.length + 1 = dl.length := extract_some_length hex1
  have hs1ne : s1 ≠ [] := by
    intro h
    subst h
    simp at hs1len
    omega
  obtain ⟨si, sd, hc2⟩ := closest_total (mt.x, mt.y) hs1ne
  obtain ⟨pre2, w2, post2, hts2, hw2id, -, -⟩ := closest_some_spec hc2
  have hmem2 : ∃ q ∈ s1, q.id = si :=
    ⟨w2, hts2 ▸ List.mem_append_right _ (List.mem_cons_self _ _), hw2id⟩
  obtain ⟨st, s2, hex2⟩ := extract_some_of_mem hmem2
  refine ⟨mi, md, mt, s1, si, sd, st, s2, hc1, hex1, hc2, hex2, ?_⟩
  rw [planRoute, if_neg (show ¬dl.length < 2 by omega)]
  simp only [hc1, hex1, hc2, hex2]

theorem planRoute_some_perm {dl l r : List Point} (h : planRoute dl l = some r) :
    r.Perm dl := by
  by_cases h2 : dl.length < 2
  · rw [planRoute_short_none l h2] at h
    simp at h
  · obtain ⟨mi, md, mt, s1, si, sd, st, s2, hc1, hex1, hc2, hex2, heq⟩ :=
      @planRoute_decomp dl l (by omega)
    rw [heq] at h
    have hA := extract_some_perm hex1
    have hB := extract_some_perm hex2
    have e1 : (s2 ++ [mt, st]).Perm ([mt, st] ++ s2) := List.perm_append_comm
    have e2 : (mt :: st :: s2).Perm (mt :: s1) := (hB.symm).cons mt
    exact (routeLoopFuel_perm _ _ _ _ h).trans (e1.trans (e2.trans hA.symm))

theorem planRoute_total {dl : List Point} (l : List Point) (h2 : 2 ≤ dl.length) :
    ∃ r, planRoute dl l = some r := by
  obtain ⟨mi, md, mt, s1, si, sd, st, s2, hc1, hex1, hc2, hex2, heq⟩ :=
    planRoute_decomp l h2
  obtain ⟨r, hr⟩ := routeLoopFuel_total s2.length s2 [mt, st] rfl (by simp)
  exact ⟨r, by rw [heq, hr]⟩

theorem foldl_min_spec :
    ∀ (xs : List ℚ) (x : ℚ),
      (xs.foldl min x = x ∨ xs.foldl min x ∈ xs) ∧
      xs.foldl min x ≤ x ∧ ∀ v ∈ xs, xs.foldl min x ≤ v := by
  intro xs
  induction xs with
  | nil => intro x; exact ⟨Or.inl rfl, le_refl x, by simp⟩
  | cons y ys ih =>
    intro x
    obtain ⟨hmem, hle, hall⟩ := ih (min x y)
    rw [List.foldl_cons]
    refine ⟨?_, le_trans hle (min_le_left x y), ?_⟩
    · rcases hmem with h | h
      · rcases le_total x y with hxy | hxy
        · left
          rw [h, min_eq_left hxy]
        · right
          rw [h, min_eq_right hxy]
          exact List.mem_cons_self _ _
      · right
        exact List.mem_cons_of_mem y h
    · intro v hv
      rcases List.mem_cons.mp hv with rfl | hv
      · exact le_trans hle (min_le_right x v)
      · exact hall v hv

theorem foldl_max_spec :
    ∀ (xs : List ℚ) (x : ℚ),
      (xs.foldl max x = x ∨ xs.foldl max x ∈ xs) ∧
      x ≤ xs.foldl max x ∧ ∀ v ∈ xs, v ≤ xs.foldl max x := by
  intro xs
  induction xs with
  | nil => intro x; exact ⟨Or.inl rfl, le_refl x, by simp⟩
  | cons y ys ih =>
    intro x
    obtain ⟨hmem, hle, hall⟩ := ih (max x y)
    rw [List.foldl_cons]
    refine ⟨?_, le_trans (le_max_left x y) hle, ?_⟩
    · rcases hmem with h | h
      · rcases le_total x y with hxy | hxy
        · right
          rw [h, max_eq_right hxy]
          exact List.mem_cons_self _ _
        · left
          rw [h, max_eq_left hxy]
      · right
        exact List.mem_cons_of_mem y h
    · intro v hv
      rcases List.mem_cons.mp hv with rfl | hv
      · exact le_trans (le_max_right x v) hle
      · exact hall v hv

theorem listMin_spec {xs : List ℚ} (h : xs ≠ []) :
    listMin xs ∈ xs ∧ ∀ v ∈ xs, listMin xs ≤ v := by
  cases xs with
  | nil => exact absurd rfl h
  | cons x xs =>
    obtain ⟨hmem, hle, hall⟩ := foldl_min_spec xs x
    rw [listMin]
    refine ⟨?_, ?_⟩
    · rcases hmem with h1 | h1
      · rw [h1]
        exact List.mem_cons_self _ _
      · exact List.mem_cons_of_mem x h1
    · intro v hv
      rcases List.mem_cons.mp hv with rfl | hv
      · exact hle
      · exact hall v hv

theorem listMax_spec {xs : List ℚ} (h : xs ≠ []) :
    listMax xs ∈ xs ∧ ∀ v ∈ xs, v ≤ listMax xs := by
  cases xs with
  | nil => exact absurd rfl h
  | cons x xs =>
    obtain ⟨hmem, hle, hall⟩ := foldl_max_spec xs x
    rw [listMax]
    refine ⟨?_, ?_⟩
    · rcases hmem with h1 | h1
      · rw [h1]
        exact List.mem_cons_self _ _
      · exact List.mem_cons_of_mem x h1
    · intro v hv
      rcases List.mem_cons.mp hv with rfl | hv
      · exact hle
      · exact hall v hv

/-- C10: `closest` (the spec's `nearest`) invoked on an empty collection
of points returns the defined empty result `null` (embedded `none`)
rather than faulting, for every target coordinate. -/
theorem closest_empty_none (t : ℚ × ℚ) : closest [] t = none := rfl

/-- C2 counterexample: on an empty input `planRoute` returns js
`undefined` (embedded `none`), not an empty route, and on a one-point
input it returns `undefined`, not a one-element or empty route. -/
theorem planRoute_degenerate_not_route :
    planRoute ([] : List Point) [] = none ∧
    planRoute [pA] [pA] = none ∧
    planRoute ([] : List Point) [] ≠ some [] ∧
    planRoute [pA] [pA] ≠ some [pA] ∧
    planRoute [pA] [pA] ≠ some [] := by
  decide

/-- C2 amended: `planRoute` on an input of fewer than two points (empty
or single-point) returns js `undefined` (embedded `none`) — it does not
fault, but it does not produce an empty or one-element route either. -/
theorem planRoute_degenerate_none (dl l : List Point) (h : dl.length < 2) :
    planRoute dl l = none :=
  planRoute_short_none l h

/-- Witness for the amended C2 theorem at a concrete one-point input. -/
theorem planRoute_degenerate_none_witness : planRoute [pA] [] = none :=
  planRoute_degenerate_none [pA] [] (by decide)

/-- C3: `planRoute` is not a function of the collection it is given. The
body reads the module global `displayedList` and never its parameter
`list`, so replacing the argument changes nothing, while holding the
argument fixed and changing the global changes the result. -/
theorem planRoute_reads_global_not_argument :
    planRoute [pA, pB] [pC, pD] = planRoute [pA, pB] [pA, pB] ∧
    planRoute [pA, pB] [pC, pD] ≠ planRoute [pC, pD] [pC, pD] := by
  constructor
  · rfl
  · with_unfolding_all decide

/-- C7: for every non-empty set of points, `middlePoint` (the spec's
`computeMidpoint`) returns the axis-aligned bounding-box center
`((minX + maxX)/2, (minY + maxY)/2)` over the set's coordinates; in
particular on the four corners of the 10 by 10 square it returns
`(5, 5)`. -/
theorem middlePoint_bounding_box_center :
    (∀ ts : List Point, ts ≠ [] →
      ∃ a b c d : ℚ,
        (∃ p ∈ ts, p.x = a) ∧ (∃ p ∈ ts, p.x = b) ∧
        (∃ p ∈ ts, p.y = c) ∧ (∃ p ∈ ts, p.y = d) ∧
        (∀ p ∈ ts, a ≤ p.x ∧ p.x ≤ b ∧ c ≤ p.y ∧ p.y ≤ d) ∧
        middlePoint ts = ((a + b) / 2, (c + d) / 2)) ∧
    middlePoint [⟨1, 0, 0⟩, ⟨2, 10, 0⟩, ⟨3, 0, 10⟩, ⟨4, 10, 10⟩] = (5, 5) := by
  constructor
  · intro ts hne
    have hxs : ts.map Point.x ≠ [] := by simp [hne]
    have hys : ts.map Point.y ≠ [] := by simp [hne]
    obtain ⟨hminx_mem, hminx_le⟩ := listMin_spec hxs
    obtain ⟨hmaxx_mem, hmaxx_ge⟩ := listMax_spec hxs
    obtain ⟨hminy_mem, hminy_le⟩ := listMin_spec hys
    obtain ⟨hmaxy_mem, hmaxy_ge⟩ := listMax_spec hys
    refine ⟨listMin (ts.map Point.x), listMax (ts.map Point.x),
            listMin (ts.map Point.y), listMax (ts.map Point.y),
            List.mem_map.mp hminx_mem, List.mem_map.mp hmaxx_mem,
            List.mem_map.mp hminy_mem, List.mem_map.mp hmaxy_mem, ?_, rfl⟩
    intro p hp
    exact ⟨hminx_le _ (List.mem_map_of_mem _ hp),
           hmaxx_ge _ (List.mem_map_of_mem _ hp),
           hminy_le _ (List.mem_map_of_mem _ hp),
           hmaxy_ge _ (List.mem_map_of_mem _ hp)⟩
  · with_unfolding_all rfl

/-- Witness for C7 at a concrete three-point input. -/
theorem middlePoint_bounding_box_center_witness :
    ∃ a b c d : ℚ,
      (∃ p ∈ [pA, pB, pE], p.x = a) ∧ (∃ p ∈ [pA, pB, pE], p.x = b) ∧
      (∃ p ∈ [pA, pB, pE], p.y = c) ∧ (∃ p ∈ [pA, pB, pE], p.y = d) ∧
      (∀ p ∈ [pA, pB, pE], a ≤ p.x ∧ p.x ≤ b ∧ c ≤ p.y ∧ p.y ≤ d) ∧
      middlePoint [pA, pB, pE] = ((a + b) / 2, (c + d) / 2) :=
  middlePoint_bounding_box_center.1 [pA, pB, pE] (by decide)

/-- C5: on a non-empty collection, `closest` (the spec's `nearest`)
returns the identifier of a point whose straight-line (Euclidean)
distance to the target is minimal over the collection, together with
that distance (carried squared in the embedding; its square root is the
Euclidean distance), and among points at exactly equal minimal distance
the one appearing first in the collection's iteration order wins: every
point before the returned one is strictly farther. -/
theorem closest_returns_first_minimum (ts : List Point) (t : ℚ × ℚ) (h : ts ≠ []) :
    ∃ pre p post, ts = pre ++ p :: post ∧
      closest ts t = some (p.id, distTo t p) ∧
      Real.sqrt ((distTo t p : ℚ) : ℝ) =
        Real.sqrt (((t.1 : ℝ) - (p.x : ℝ)) ^ 2 + ((t.2 : ℝ) - (p.y : ℝ)) ^ 2) ∧
      (∀ q ∈ ts, Real.sqrt ((distTo t p : ℚ) : ℝ) ≤ Real.sqrt ((distTo t q : ℚ) : ℝ)) ∧
      (∀ q ∈ pre, Real.sqrt ((distTo t p : ℚ) : ℝ) < Real.sqrt ((distTo t q : ℚ) : ℝ)) := by
  obtain ⟨pre, p, post, hts, hc, hpre, hall⟩ := closest_spec t h
  refine ⟨pre, p, post, hts, hc, ?_, ?_, ?_⟩
  · congr 1
    simp only [distTo, dist2]
    push_cast
    ring
  · intro q hq
    exact Real.sqrt_le_sqrt (by exact_mod_cast hall q hq)
  · intro q hq
    exact Real.sqrt_lt_sqrt (by exact_mod_cast dist2_nonneg t.1 t.2 p.x p.y)
      (by exact_mod_cast hpre q hq)

/-- Witness for C5 at a concrete two-point collection and target. -/
theorem closest_returns_first_minimum_witness :
    ∃ pre p post, ([pA, pB] : List Point) = pre ++ p :: post ∧
      closest [pA, pB] (0, 0) = some (p.id, distTo (0, 0) p) ∧
      Real.sqrt ((distTo (0, 0) p : ℚ) : ℝ) =
        Real.sqrt ((((0 : ℚ) : ℝ) - (p.x : ℝ)) ^ 2 + (((0 : ℚ) : ℝ) - (p.y : ℝ)) ^ 2) ∧
      (∀ q ∈ ([pA, pB] : List Point),
        Real.sqrt ((distTo (0, 0) p : ℚ) : ℝ) ≤ Real.sqrt ((distTo (0, 0) q : ℚ) : ℝ)) ∧
      (∀ q ∈ pre,
        Real.sqrt ((distTo (0, 0) p : ℚ) : ℝ) < Real.sqrt ((distTo (0, 0) q : ℚ) : ℝ)) :=
  closest_returns_first_minimum [pA, pB] (0, 0) (by decide)

/-- C6: at an extension step (`dest` with a head and a tail, with the
nearest pool point to each), when the head candidate is strictly closer
it is removed from the pool and prepended to the route; otherwise —
`headDist ≥ tailDist`, so in particular on exact ties — the tail
candidate is removed from the pool and appended. -/
theorem shiftClosestTruck_head_tail_rule (source dest : List Point)
    (hd tl : Point) (nh nt : Nat × ℚ)
    (h1 : dest.head? = some hd) (h2 : dest.getLast? = some tl)
    (h3 : closest source (hd.x, hd.y) = some nh)
    (h4 : closest source (tl.x, tl.y) = some nt) :
    (nh.2 < nt.2 → ∃ p rest, extract source nh.1 = (some p, rest) ∧
      shiftClosestTruck source dest = some (rest, p :: dest)) ∧
    (nt.2 ≤ nh.2 → ∃ p rest, extract source nt.1 = (some p, rest) ∧
      shiftClosestTruck source dest = some (rest, dest ++ [p])) := by
  rcases nh with ⟨ih, dh⟩
  rcases nt with ⟨it, dt⟩
  constructor
  · intro hlt
    obtain ⟨pre, w, post, hts, hwid, -, -⟩ := closest_some_spec h3
    have hmem : ∃ q ∈ source, q.id = ih :=
      ⟨w, hts ▸ List.mem_append_right _ (List.mem_cons_self _ _), hwid⟩
    obtain ⟨p, rest, hex⟩ := extract_some_of_mem hmem
    exact ⟨p, rest, hex, by
      simp [shiftClosestTruck, h1, h2, h3, h4, hlt, hex]⟩
  · intro hle
    obtain ⟨pre, w, post, hts, hwid, -, -⟩ := closest_some_spec h4
    have hmem : ∃ q ∈ source, q.id = it :=
      ⟨w, hts ▸ List.mem_append_right _ (List.mem_cons_self _ _), hwid⟩
    obtain ⟨p, rest, hex⟩ := extract_some_of_mem hmem
    exact ⟨p, rest, hex, by
      simp [shiftClosestTruck, h1, h2, h3, h4, not_lt.mpr hle, hex]⟩

/-- Witness for C6 at a concrete step: the tail candidate is closer
(1 ≤ 9), so it is appended. -/
theorem shiftClosestTruck_head_tail_rule_witness :
    ∃ p rest, extract [pE] 5 = (some p, rest) ∧
      shiftClosestTruck [pE] [pA, pB] = some (rest, [pA, pB] ++ [p]) :=
  (shiftClosestTruck_head_tail_rule [pE] [pA, pB] pA pB (5, 9) (5, 1)
    rfl rfl (by with_unfolding_all rfl) (by with_unfolding_all rfl)).2 (by norm_num)

/-- C1: for every finite input collection with unique identifiers and at
least two points, `planRoute` (invoked as at its call sites, with the
global `displayedList` equal to the passed collection) returns a route
that is a permutation of the input: the same points, the same
identifiers each exactly once, and the same length. -/
theorem planRoute_permutation (dl : List Point)
    (hids : (dl.map Point.id).Nodup) (h2 : 2 ≤ dl.length) :
    ∃ r, planRoute dl dl = some r ∧ r.Perm dl ∧
      (r.map Point.id).Perm (dl.map Point.id) ∧ r.length = dl.length := by
  obtain ⟨r, hr⟩ := planRoute_total dl h2
  have hp := planRoute_some_perm hr
  exact ⟨r, hr, hp, hp.map Point.id, hp.length_eq⟩

/-- Witness for C1 at a concrete two-point input. -/
theorem planRoute_permutation_witness :
    ∃ r, planRoute [pA, pB] [pA, pB] = some r ∧ r.Perm [pA, pB] ∧
      (r.map Point.id).Perm ([pA, pB].map Point.id) ∧ r.length = [pA, pB].length :=
  planRoute_permutation [pA, pB] (by decide) (by decide)

/-- C4: a call to `planRoute` leaves the caller-supplied global
collection unchanged — same members in the same order — and every point
of a returned route is one of the original points, with identifier and
coordinates intact (the body only writes the locals `source`, a private
copy, and `dest`). -/
theorem planRoute_no_caller_mutation (g : Globals) (l : List Point) :
    (planRouteCall g l).1 = g ∧
    ∀ r, (planRouteCall g l).2 = some r → ∀ p ∈ r, p ∈ g.displayedList := by
  refine ⟨rfl, ?_⟩
  intro r hr p hp
  have hr' : planRoute g.displayedList l = some r := hr
  exact (planRoute_some_perm hr').subset hp

/-- Witness for C4 at a concrete global state and argument. -/
theorem planRoute_no_caller_mutation_witness :
    (planRouteCall ⟨[pA, pB]⟩ []).1 = ⟨[pA, pB]⟩ ∧
    ∀ p ∈ [pA, pB], p ∈ (⟨[pA, pB]⟩ : Globals).displayedList :=
  ⟨(planRoute_no_caller_mutation ⟨[pA, pB]⟩ []).1,
   (planRoute_no_caller_mutation ⟨[pA, pB]⟩ []).2 [pA, pB] (by with_unfolding_all rfl)⟩

/-- C9: `planRoute` always terminates: every successful extension step
removes exactly one point from the pool (the pool length strictly
decreases), the loop returns the route as soon as the pool is empty, and
on any input with unique identifiers and at least two points the plan
runs to completion, returning a route covering all points. -/
theorem planRoute_terminates :
    (∀ s d s' d', shiftClosestTruck s d = some (s', d') → s'.length + 1 = s.length) ∧
    (∀ fuel d, routeLoopFuel fuel [] d = some d) ∧
    (∀ dl : List Point, (dl.map Point.id).Nodup → 2 ≤ dl.length →
      ∃ r, planRoute dl dl = some r ∧ r.length = dl.length) := by
  refine ⟨?_, ?_, ?_⟩
  · intro s d s' d' h
    exact (shift_some_spec h).1
  · intro fuel d
    cases fuel with
    | zero => simp [routeLoopFuel]
    | succ fuel => simp [routeLoopFuel]
  · intro dl hids h2
    obtain ⟨r, hr⟩ := planRoute_total dl h2
    exact ⟨r, hr, (planRoute_some_perm hr).length_eq⟩

/-- Witness for C9: a concrete step removing one point, a concrete
empty-pool loop exit, and a concrete completed plan. -/
theorem planRoute_terminates_witness :
    ([] : List Point).length + 1 = [pE].length ∧
    routeLoopFuel 3 [] [pA] = some [pA] ∧
    ∃ r, planRoute [pA, pB] [pA, pB] = some r ∧ r.length = [pA, pB].length :=
  ⟨planRoute_terminates.1 [pE] [pA, pB] [] ([pA, pB] ++ [pE])
      (by with_unfolding_all rfl),
   planRoute_terminates.2.1 3 [pA],
   planRoute_terminates.2.2 [pA, pB] (by decide) (by decide)⟩

/-- C8: for an input with unique identifiers and at least two points, the
first point the planner places is the input point nearest the
bounding-box midpoint, the second is the remaining point nearest to that
first point (ties resolved first-in-iteration-order, as in `closest`),
both are removed from the pool before the extension loop, and the loop
starts from exactly that pool and two-element route. -/
theorem planRoute_seed_points (dl : List Point)
    (hids : (dl.map Point.id).Nodup) (h2 : 2 ≤ dl.length) :
    ∃ mt st s1 s2,
      IsFirstNearest dl (middlePoint dl) mt ∧
      extract dl mt.id = (some mt, s1) ∧
      IsFirstNearest s1 (mt.x, mt.y) st ∧
      extract s1 st.id = (some st, s2) ∧
      planRoute dl dl = routeLoopFuel s2.length s2 [mt, st] := by
  have hne : dl ≠ [] := by
    intro h
    subst h
    simp at h2
  obtain ⟨pre, w, post, hts, hc1, hpre1, hall1⟩ := closest_spec (middlePoint dl) hne
  have hidsplit : (pre.map Point.id).Nodup ∧ (w.id :: post.map Point.id).Nodup ∧
      (pre.map Point.id).Disjoint (w.id :: post.map Point.id) := by
    have h0 := hids
    rw [hts, List.map_append, List.map_cons] at h0
    exact List.nodup_append.mp h0
  have hpreid : ∀ q ∈ pre, q.id ≠ w.id := by
    intro q hq heq
    exact hidsplit.2.2 (List.mem_map_of_mem _ hq) (by simp [heq])
  have hex1 : extract dl w.id = (some w, pre ++ post) := by
    rw [hts]
    exact extract_first rfl hpreid
  have hsub : (pre ++ post).Sublist dl := by
    rw [hts]
    exact (List.sublist_cons_self _ _).append_left pre
  have hids1 : ((pre ++ post).map Point.id).Nodup :=
    List.Nodup.sublist (hsub.map Point.id) hids
  have hlen1 : (pre ++ post).length + 1 = dl.length := extract_some_length hex1
  have hne1 : (pre ++ post) ≠ [] := by
    intro h
    rw [h] at hlen1
    simp at hlen1
    omega
  obtain ⟨pre2, w2, post2, hts2, hc2, hpre2, hall2⟩ := closest_spec (w.x, w.y) hne1
  have hidsplit2 : (pre2.map Point.id).Nodup ∧ (w2.id :: post2.map Point.id).Nodup ∧
      (pre2.map Point.id).Disjoint (w2.id :: post2.map Point.id) := by
    have h0 := hids1
    rw [hts2, List.map_append, List.map_cons] at h0
    exact List.nodup_append.mp h0
  have hpre2id : ∀ q ∈ pre2, q.id ≠ w2.id := by
    intro q hq heq
    exact hidsplit2.2.2 (List.mem_map_of_mem _ hq) (by simp [heq])
  have hex2 : extract (pre ++ post) w2.id = (some w2, pre2 ++ post2) := by
    rw [hts2]
    exact extract_first rfl hpre2id
  refine ⟨w, w2, pre ++ post, pre2 ++ post2,
    ⟨pre, post, hts, hpre1, hall1⟩, hex1,
    ⟨pre2, post2, hts2, hpre2, hall2⟩, hex2, ?_⟩
  rw [planRoute, if_neg (show ¬dl.length < 2 by omega)]
  simp only [hc1, hex1, hc2, hex2]

/-- Witness for C8 at a concrete three-point input. -/
theorem planRoute_seed_points_witness :
    ∃ mt st s1 s2,
      IsFirstNearest [pA, pB, pE] (middlePoint [pA, pB, pE]) mt ∧
      extract [pA, pB, pE] mt.id = (some mt, s1) ∧
      IsFirstNearest s1 (mt.x, mt.y) st ∧
      extract s1 st.id = (some st, s2) ∧
      planRoute [pA, pB, pE] [pA, pB, pE] = routeLoopFuel s2.length s2 [mt, st] :=
  planRoute_seed_points [pA, pB, pE] (by decide) (by decide)
